import Mathlib

/-!
Shallow embedding of the in-memory FUSE filesystem from `memory.py`.

The Python program keeps a tree of nodes (`DirNode`, `FileNode`,
`SymLinkNode`, plus the `NoneNode` sentinel returned by failed lookups)
rooted at `Memory.fs_root`, and a facade class `Memory` whose methods
resolve slash separated paths and mutate the tree.  Python exceptions
(`FuseOSError(ENOENT)`, `FuseOSError(ENODATA)`, uncaught `KeyError`,
`AttributeError`, `ValueError`) are modelled by the `FsError` sum type and
`Except`.  Python dictionaries are modelled as association lists with
insertion order semantics: updating an existing key keeps its position,
inserting a new key appends at the end.

Timestamps: every node constructor calls `time()`; the constructors below
take an explicit `now` argument instead.  The fresh `NoneNode()` sentinels
created inside `find_node` get the fixed metadata `noneMeta`; their
timestamps are never observable (the only reads of a sentinel either raise
or touch its initially empty `xattrs`).
-/

/-- Failure outcomes of the facade.  `enoent` is `FuseOSError(ENOENT)`,
`enodata` is `FuseOSError(ENODATA)`; the remaining constructors are
uncaught Python exceptions escaping the method. -/
inductive FsError where
  | enoent
  | enodata
  | keyError (key : String)
  | attributeError
  | valueError
deriving DecidableEq, Repr

/-- Which failures are structured typed errors (the `FuseOSError` ones),
as opposed to uncaught exceptions. -/
def FsError.isTyped : FsError → Bool
  | .enoent => true
  | .enodata => true
  | _ => false

/-- The fields every `FSNode` instance carries (`mode`, three timestamps,
`nlink`, `uid`, `gid`, `xattrs`). -/
structure NMeta where
  mode : Nat
  ctime : Nat
  mtime : Nat
  atime : Nat
  nlink : Int
  uid : Nat
  gid : Nat
  xattrs : List (String × List Nat)
deriving Repr

/-- The attribute record returned by `FSNode.attrs`. -/
structure Attrs where
  st_mode : Nat
  st_ctime : Nat
  st_mtime : Nat
  st_atime : Nat
  st_nlink : Int
  st_uid : Nat
  st_gid : Nat
  st_size : Nat
deriving DecidableEq, Repr

/-- The node hierarchy: `DirNode` (child mapping), `FileNode` (byte
content), `SymLinkNode` (byte content holding the target text) and the
`NoneNode` sentinel. -/
inductive Node where
  | dir (meta : NMeta) (entries : List (String × Node))
  | file (meta : NMeta) (data : List Nat)
  | symlink (meta : NMeta) (data : List Nat)
  | none (meta : NMeta)

/-- Python dict lookup `d.get(k)` / `d[k]` on an ordered mapping. -/
def dictGet {α : Type} : List (String × α) → String → Option α
  | [], _ => Option.none
  | (k', v) :: rest, k => if k' = k then some v else dictGet rest k

/-- Python dict assignment `d[k] = v`: replace in place if the key is
present, otherwise append. -/
def dictSet {α : Type} : List (String × α) → String → α → List (String × α)
  | [], k, v => [(k, v)]
  | (k', v') :: rest, k, v =>
      if k' = k then (k, v) :: rest else (k', v') :: dictSet rest k v

/-- Python `del d[k]`: `some` of the shrunk mapping when the key is
present, `Option.none` (a `KeyError` at the call site) otherwise. -/
def dictDel {α : Type} : List (String × α) → String → Option (List (String × α))
  | [], _ => Option.none
  | (k', v') :: rest, k =>
      if k' = k then some rest else (dictDel rest k).map (fun l => (k', v') :: l)

/-- Keys of the association list are pairwise distinct, as they always are
for a Python dict. -/
def nodupKeys {α : Type} : List (String × α) → Bool
  | [] => true
  | (k, _) :: rest => (dictGet rest k).isNone && nodupKeys rest

/-- `FSNode.__init__`: mode as given, timestamps `now`, `nlink = 0`,
`uid = gid = 0`, empty `xattrs`. -/
def baseMeta (mode now : Nat) : NMeta :=
  { mode := mode, ctime := now, mtime := now, atime := now,
    nlink := 0, uid := 0, gid := 0, xattrs := [] }

/-- Metadata of the fresh `NoneNode()` sentinels made inside `find_node`
(`FSNode(mode=0)`; the timestamps are unobservable and fixed at 0). -/
def noneMeta : NMeta := baseMeta 0 0

/-- `DirNode(mode=m)`: or in `S_IFDIR`, `nlink = 2`, empty entries. -/
def dirNode (mode now : Nat) : Node :=
  .dir { baseMeta (0o040000 ||| mode) now with nlink := 2 } []

/-- `FileNode(mode=m)`: or in `S_IFREG`, `nlink = 1`, empty content. -/
def fileNode (mode now : Nat) : Node :=
  .file { baseMeta (0o100000 ||| mode) now with nlink := 1 } []

/-- `SymLinkNode(mode=m)` with its `data` assigned: `FileNode.__init__`
ors in `S_IFREG`, then `SymLinkNode.__init__` ors in `S_IFLNK`. -/
def symLinkNode (mode now : Nat) (data : List Nat) : Node :=
  .symlink { baseMeta (0o120000 ||| (0o100000 ||| mode)) now with nlink := 1 } data

/-- The shared metadata record of any node. -/
def Node.meta : Node → NMeta
  | .dir m _ => m
  | .file m _ => m
  | .symlink m _ => m
  | .none m => m

/-- Whether the node is a real tree member rather than the sentinel. -/
def Node.isReal : Node → Bool
  | .none _ => false
  | _ => true

/-- `FSNode.attrs` (overridden by `NoneNode.attrs`, which raises
`FuseOSError(ENOENT)`).  `st_size` is 0 for a directory and the content
length for files and symlinks. -/
def Node.attrs : Node → Except FsError Attrs
  | .none _ => .error .enoent
  | .dir m _ =>
      .ok { st_mode := m.mode, st_ctime := m.ctime, st_mtime := m.mtime,
            st_atime := m.atime, st_nlink := m.nlink, st_uid := m.uid,
            st_gid := m.gid, st_size := 0 }
  | .file m d =>
      .ok { st_mode := m.mode, st_ctime := m.ctime, st_mtime := m.mtime,
            st_atime := m.atime, st_nlink := m.nlink, st_uid := m.uid,
            st_gid := m.gid, st_size := d.length }
  | .symlink m d =>
      .ok { st_mode := m.mode, st_ctime := m.ctime, st_mtime := m.mtime,
            st_atime := m.atime, st_nlink := m.nlink, st_uid := m.uid,
            st_gid := m.gid, st_size := d.length }

/-- `node.xattrs[name] = value`, possible on every node kind (the sentinel
included, since `FSNode.__init__` gives it an `xattrs` dict). -/
def Node.withXattr : Node → String → List Nat → Node
  | .dir m es, k, v => .dir { m with xattrs := dictSet m.xattrs k v } es
  | .file m d, k, v => .file { m with xattrs := dictSet m.xattrs k v } d
  | .symlink m d, k, v => .symlink { m with xattrs := dictSet m.xattrs k v } d
  | .none m, k, v => .none { m with xattrs := dictSet m.xattrs k v }

/-- Python `str.split('/')`: split a character list at every separator;
always returns at least one (possibly empty) piece. -/
def splitChars (sep : Char) : List Char → List (List Char)
  | [] => [[]]
  | c :: rest =>
      let r := splitChars sep rest
      if c = sep then [] :: r
      else
        match r with
        | h :: t => (c :: h) :: t
        | [] => [[c]]

/-- `path.split('/')` as strings. -/
def pySplitSlash (s : String) : List String :=
  (splitChars '/' s.toList).map (fun cs => String.mk cs)

/-- `path.split('/')[1:]`: the raw segment list walked by `find_node`. -/
def pyParts (p : String) : List String :=
  (pySplitSlash p).drop 1

/-- The same segment list with the empty segments dropped, matching the
`if part == '': continue` skip inside the resolution loop. -/
def pyPartsF (p : String) : List String :=
  (pyParts p).filter (fun s => s != "")

/-- `path.rsplit('/', 1)` on a character list: `some (before, after)` at
the last separator, `Option.none` when no separator occurs. -/
def rsplitLast : List Char → Option (List Char × List Char)
  | [] => Option.none
  | c :: rest =>
      match rsplitLast rest with
      | some (a, b) => some (c :: a, b)
      | Option.none => if c = '/' then some ([], rest) else Option.none

/-- `Memory.split_parent_and_filename`: `path.rsplit('/', 1)` unpacked
into a pair; a path without a separator yields a one element list and the
unpacking raises `ValueError`. -/
def split_parent_and_filename (path : String) : Except FsError (String × String) :=
  match rsplitLast path.toList with
  | some (a, b) => .ok (String.mk a, String.mk b)
  | Option.none => .error .valueError

/-- The loop body of `DirNode.find_node`: walk the raw segments, skipping
empty ones; a missing child continues with a fresh sentinel
(`entries.get(part, NoneNode())`), and touching `.entries` on anything
that is not a directory raises `AttributeError`. -/
def walkS : Node → List String → Except FsError Node
  | n, [] => .ok n
  | n, s :: rest =>
      if s = "" then walkS n rest
      else
        match n with
        | .dir _ es => walkS ((dictGet es s).getD (.none noneMeta)) rest
        | .file _ _ => .error .attributeError
        | .symlink _ _ => .error .attributeError
        | .none _ => .error .attributeError

/-- `walkS` on a segment list that contains no empty segments. -/
def walk : Node → List String → Except FsError Node
  | n, [] => .ok n
  | n, s :: rest =>
      match n with
      | .dir _ es => walk ((dictGet es s).getD (.none noneMeta)) rest
      | .file _ _ => .error .attributeError
      | .symlink _ _ => .error .attributeError
      | .none _ => .error .attributeError

/-- The `get_node`-then-mutate pattern shared by every mutating facade
method: resolve the raw segments exactly as `find_node` does and apply the
mutation `f` to the resolved node, rebuilding the spine.  When resolution
runs off the mapping, the Python code keeps going with a fresh orphan
`NoneNode`; a mutation applied to that orphan leaves the tree unchanged
(its errors still propagate). -/
def updateAtS : Node → List String → (Node → Except FsError Node) → Except FsError Node
  | n, [], f => f n
  | n, s :: rest, f =>
      if s = "" then updateAtS n rest f
      else
        match n with
        | .dir m es =>
            match dictGet es s with
            | some c => (updateAtS c rest f).map (fun c' => .dir m (dictSet es s c'))
            | Option.none => (updateAtS (.none noneMeta) rest f).map (fun _ => .dir m es)
        | .file _ _ => .error .attributeError
        | .symlink _ _ => .error .attributeError
        | .none _ => .error .attributeError

/-- `updateAtS` on a segment list that contains no empty segments. -/
def updateAt : Node → List String → (Node → Except FsError Node) → Except FsError Node
  | n, [], f => f n
  | n, s :: rest, f =>
      match n with
      | .dir m es =>
          match dictGet es s with
          | some c => (updateAt c rest f).map (fun c' => .dir m (dictSet es s c'))
          | Option.none => (updateAt (.none noneMeta) rest f).map (fun _ => .dir m es)
      | .file _ _ => .error .attributeError
      | .symlink _ _ => .error .attributeError
      | .none _ => .error .attributeError

/-- The value stored under a path in the legacy `self.files` dict.  Only
the key `'/'` is ever present, put there by `__init__` as a plain stat
dict; no code path ever stores an `'attrs'` entry in it, so the other stat
keys (never read by any method) are not modelled.  `xattrsStored` is the
optional `'attrs'` sub-dict that `removexattr` asks for. -/
structure LegacyFileEntry where
  xattrsStored : Option (List (String × List Nat))

/-- The facade state: the legacy `self.files` dict, the handle counter
`self.fd` and the node tree root `self.fs_root`.  The unused
`self.data = defaultdict(bytes)` is never read or written by any method
and is not modelled. -/
structure Memory where
  files : List (String × LegacyFileEntry)
  fd : Nat
  fs_root : Node

/-- `Memory.__init__` (with `now` for `time()`). -/
def Memory.init (now : Nat) : Memory :=
  { files := [("/", { xattrsStored := Option.none })],
    fd := 0,
    fs_root := dirNode 0o755 now }

/-- `Memory.get_node`: `self.fs_root.find_node(path)`. -/
def Memory.get_node (m : Memory) (path : String) : Except FsError Node :=
  walkS m.fs_root (pyParts path)

/-- `Memory.getattr`: `self.get_node(path).attrs`. -/
def Memory.getattr (m : Memory) (path : String) : Except FsError Attrs :=
  (m.get_node path).bind Node.attrs

/-- `Memory.getxattr`: `node.xattrs[name]`, raising
`FuseOSError(ENODATA)` on `KeyError`. -/
def Memory.getxattr (m : Memory) (path name : String) : Except FsError (List Nat) :=
  (m.get_node path).bind fun n =>
    match dictGet n.meta.xattrs name with
    | some v => .ok v
    | Option.none => .error .enodata

/-- `Memory.listxattr`: `node.xattrs.keys()`. -/
def Memory.listxattr (m : Memory) (path : String) : Except FsError (List String) :=
  (m.get_node path).bind fun n => .ok (n.meta.xattrs.map Prod.fst)

/-- `Memory.create`: put a fresh `FileNode` under the parent (silently
overwriting an existing entry) and return the bumped handle counter. -/
def Memory.create (m : Memory) (path : String) (mode now : Nat) :
    Except FsError (Memory × Nat) :=
  (split_parent_and_filename path).bind fun pf =>
    (updateAtS m.fs_root (pyParts pf.1) (fun n =>
      match n with
      | .dir dm es => .ok (.dir dm (dictSet es pf.2 (fileNode mode now)))
      | _ => .error .attributeError)).bind fun root' =>
    .ok ({ m with fs_root := root', fd := m.fd + 1 }, m.fd + 1)

/-- `Memory.mkdir`: put a fresh `DirNode` under the parent and bump the
parent's `nlink` (both on the same resolved parent object). -/
def Memory.mkdir (m : Memory) (path : String) (mode now : Nat) :
    Except FsError Memory :=
  (split_parent_and_filename path).bind fun pf =>
    (updateAtS m.fs_root (pyParts pf.1) (fun n =>
      match n with
      | .dir dm es =>
          .ok (.dir { dm with nlink := dm.nlink + 1 }
                 (dictSet es pf.2 (dirNode mode now)))
      | _ => .error .attributeError)).bind fun root' =>
    .ok { m with fs_root := root' }

/-- `Memory.read`: `node.data[offset:offset + size]`. -/
def Memory.read (m : Memory) (path : String) (size offset : Nat) :
    Except FsError (List Nat) :=
  (m.get_node path).bind fun n =>
    match n with
    | .file _ d => .ok ((d.drop offset).take size)
    | .symlink _ d => .ok ((d.drop offset).take size)
    | _ => .error .attributeError

/-- `Memory.readdir`: `['.', '..'] + node.entries.keys()`. -/
def Memory.readdir (m : Memory) (path : String) : Except FsError (List String) :=
  (m.get_node path).bind fun n =>
    match n with
    | .dir _ es => .ok ([".", ".."] ++ es.map Prod.fst)
    | _ => .error .attributeError

/-- `Memory.readlink`: `node.data`; a directory or the sentinel has no
`data` attribute, so the access raises `AttributeError`. -/
def Memory.readlink (m : Memory) (path : String) : Except FsError (List Nat) :=
  (m.get_node path).bind fun n =>
    match n with
    | .file _ d => .ok d
    | .symlink _ d => .ok d
    | _ => .error .attributeError

/-- `Memory.removexattr`: reads `self.files[path]` (raising `KeyError`
for any path absent from the legacy dict), takes its `'attrs'` sub-dict
(defaulting to a fresh one) and deletes the name from it, swallowing the
`KeyError` of a missing name. -/
def Memory.removexattr (m : Memory) (path name : String) : Except FsError Memory :=
  match dictGet m.files path with
  | Option.none => .error (.keyError path)
  | some e =>
      match e.xattrsStored with
      | Option.none => .ok m
      | some d =>
          match dictDel d name with
          | Option.none => .ok m
          | some d' =>
              .ok { m with files := dictSet m.files path { xattrsStored := some d' } }

/-- The insertion step of `rename`:
`parent_node.entries[filename] = moving_node`. -/
def insF (k : String) (v : Node) : Node → Except FsError Node
  | .dir dm es => .ok (.dir dm (dictSet es k v))
  | _ => .error .attributeError

/-- The deletion step of `rename`, `rmdir` and `unlink`:
`del parent_node.entries[filename]`. -/
def delF (k : String) : Node → Except FsError Node
  | .dir dm es =>
      match dictDel es k with
      | some es' => .ok (.dir dm es')
      | Option.none => .error (.keyError k)
  | _ => .error .attributeError

/-- `Memory.rename`: resolve the moving node, insert it under the new
parent and name, then delete the old entry.  Link counts are not adjusted
(the TODO in the source).  The moved subtree is transferred by value here;
the Python object graph only differs when a node is renamed into its own
subtree. -/
def Memory.rename (m : Memory) (old_path new_path : String) : Except FsError Memory :=
  (m.get_node old_path).bind fun moving =>
    (split_parent_and_filename new_path).bind fun npf =>
      (updateAtS m.fs_root (pyParts npf.1) (insF npf.2 moving)).bind fun r1 =>
        (split_parent_and_filename old_path).bind fun opf =>
          (updateAtS r1 (pyParts opf.1) (delF opf.2)).bind fun r2 =>
            .ok { m with fs_root := r2 }

/-- `Memory.rmdir`: delete the entry (no emptiness check) and decrement
the parent's `nlink`; the decrement is skipped when the delete raises. -/
def Memory.rmdir (m : Memory) (path : String) : Except FsError Memory :=
  (split_parent_and_filename path).bind fun pf =>
    (updateAtS m.fs_root (pyParts pf.1) (fun n =>
      match n with
      | .dir dm es =>
          match dictDel es pf.2 with
          | some es' => .ok (.dir { dm with nlink := dm.nlink - 1 } es')
          | Option.none => .error (.keyError pf.2)
      | _ => .error .attributeError)).bind fun root' =>
    .ok { m with fs_root := root' }

/-- `Memory.setxattr`: `node.xattrs[name] = value` on the resolved node
(options ignored).  On a missing path the assignment lands on the orphan
sentinel and the tree is unchanged. -/
def Memory.setxattr (m : Memory) (path name : String) (value : List Nat) :
    Except FsError Memory :=
  (updateAtS m.fs_root (pyParts path) (fun n =>
    .ok (n.withXattr name value))).bind fun root' =>
  .ok { m with fs_root := root' }

/-- `Memory.symlink target source`: insert a `SymLinkNode(mode=0777)`
holding `source` as its data under the path `target`. -/
def Memory.symlink (m : Memory) (target source : String) (now : Nat) :
    Except FsError Memory :=
  (split_parent_and_filename target).bind fun pf =>
    (updateAtS m.fs_root (pyParts pf.1)
      (insF pf.2 (symLinkNode 0o777 now (source.toList.map Char.toNat)))).bind fun root' =>
    .ok { m with fs_root := root' }

/-- `Memory.truncate`: `node.data = node.data[:length]`; only file and
symlink nodes have a `data` attribute. -/
def Memory.truncate (m : Memory) (path : String) (length : Nat) :
    Except FsError Memory :=
  (updateAtS m.fs_root (pyParts path) (fun n =>
    match n with
    | .file mm d => .ok (.file mm (d.take length))
    | .symlink mm d => .ok (.symlink mm (d.take length))
    | _ => .error .attributeError)).bind fun root' =>
  .ok { m with fs_root := root' }

/-- `Memory.unlink`: delete the entry from the parent mapping. -/
def Memory.unlink (m : Memory) (path : String) : Except FsError Memory :=
  (split_parent_and_filename path).bind fun pf =>
    (updateAtS m.fs_root (pyParts pf.1) (delF pf.2)).bind fun root' =>
    .ok { m with fs_root := root' }

/-- `Memory.write`: `node.data = node.data[:offset] + data`, returning
`len(data)`. -/
def Memory.write (m : Memory) (path : String) (data : List Nat) (offset : Nat) :
    Except FsError (Memory × Nat) :=
  (updateAtS m.fs_root (pyParts path) (fun n =>
    match n with
    | .file mm d => .ok (.file mm (d.take offset ++ data))
    | .symlink mm d => .ok (.symlink mm (d.take offset ++ data))
    | _ => .error .attributeError)).bind fun root' =>
  .ok ({ m with fs_root := root' }, data.length)

/-- `leadsB xs ys` holds when `xs` is a prefix of `ys`. -/
def leadsB : List String → List String → Bool
  | [], _ => true
  | _ :: _, [] => false
  | a :: as, b :: bs => a == b && leadsB as bs

mutual

/-- Every directory in the tree has pairwise distinct entry keys, which
the Python dicts guarantee structurally and the association lists of this
embedding state explicitly. -/
def Node.wfB : Node → Bool
  | .dir _ es => nodupKeys es && wfEntries es
  | .file _ _ => true
  | .symlink _ _ => true
  | .none _ => true

/-- `Node.wfB` holding at every node of an entry list. -/
def wfEntries : List (String × Node) → Bool
  | [] => true
  | (_, c) :: rest => Node.wfB c && wfEntries rest

end

mutual

/-- The link count bookkeeping invariant for mkdir/rmdir sequences: every
node is a directory whose `nlink` equals 2 plus its entry count, with
pairwise distinct keys, hereditarily. -/
def Node.mrInv : Node → Bool
  | .dir mm es => (mm.nlink == 2 + (es.length : Int)) && nodupKeys es && mrEntries es
  | .file _ _ => false
  | .symlink _ _ => false
  | .none _ => false

/-- `Node.mrInv` holding at every node of an entry list. -/
def mrEntries : List (String × Node) → Bool
  | [] => true
  | (_, c) :: rest => Node.mrInv c && mrEntries rest

end

/-- Filesystem states reachable from a fresh mount by mkdir and rmdir
requests in which every mkdir names a well formed absent path (so no
existing entry is silently overwritten) and every request succeeds. -/
inductive ReachMR : Memory → Prop where
  | base (now : Nat) : ReachMR (Memory.init now)
  | step_mk {m m' : Memory} {p pp fn : String} {mode now : Nat} :
      ReachMR m →
      split_parent_and_filename p = .ok (pp, fn) →
      pyPartsF p = pyPartsF pp ++ [fn] →
      m.get_node p = .ok (.none noneMeta) →
      m.mkdir p mode now = .ok m' →
      ReachMR m'
  | step_rm {m m' : Memory} {p : String} :
      ReachMR m → m.rmdir p = .ok m' → ReachMR m'

/-! ### Association list lemmas -/

theorem dictGet_dictSet_self {α : Type} (l : List (String × α)) (k : String) (v : α) :
    dictGet (dictSet l k v) k = some v := by
  induction l with
  | nil => simp [dictGet, dictSet]
  | cons hd rest ih =>
    obtain ⟨k', v'⟩ := hd
    by_cases hk : k' = k
    · subst hk; simp [dictGet, dictSet]
    · simp [dictGet, dictSet, hk, ih]

theorem dictGet_dictSet_ne {α : Type} (l : List (String × α)) (k j : String) (v : α)
    (h : j ≠ k) : dictGet (dictSet l k v) j = dictGet l j := by
  induction l with
  | nil => simp [dictGet, dictSet, Ne.symm h]
  | cons hd rest ih =>
    obtain ⟨k', v'⟩ := hd
    by_cases hk : k' = k
    · subst hk; simp [dictGet, dictSet, Ne.symm h]
    · by_cases hj : k' = j
      · subst hj; simp [dictGet, dictSet, hk]
      · simp [dictGet, dictSet, hk, hj, ih]

theorem dictDel_of_get {α : Type} (l : List (String × α)) (k : String) (v : α)
    (h : dictGet l k = some v) : ∃ l', dictDel l k = some l' := by
  induction l with
  | nil => simp [dictGet] at h
  | cons hd rest ih =>
    obtain ⟨k', v'⟩ := hd
    by_cases hk : k' = k
    · exact ⟨rest, by simp [dictDel, hk]⟩
    · simp only [dictGet, if_neg hk] at h
      obtain ⟨l', hl'⟩ := ih h
      exact ⟨(k', v') :: l', by simp [dictDel, hk, hl']⟩

theorem dictGet_dictDel_ne {α : Type} (l : List (String × α)) (k j : String)
    (hne : j ≠ k) :
    ∀ l', dictDel l k = some l' → dictGet l' j = dictGet l j := by
  induction l with
  | nil => intro l' h; simp [dictDel] at h
  | cons hd rest ih =>
    intro l' h
    obtain ⟨k', v'⟩ := hd
    by_cases hk : k' = k
    · subst hk
      simp only [dictDel, if_pos rfl] at h
      cases h
      simp [dictGet, Ne.symm hne]
    · simp only [dictDel, if_neg hk] at h
      cases hrec : dictDel rest k with
      | none => rw [hrec] at h; simp at h
      | some l'' =>
        rw [hrec] at h; simp at h
        subst h
        by_cases hj : k' = j
        · subst hj; simp [dictGet]
        · simp [dictGet, hj, ih l'' hrec]

theorem dictGet_dictDel_self {α : Type} (l : List (String × α)) (k : String) :
    ∀ l', nodupKeys l = true → dictDel l k = some l' →
      dictGet l' k = Option.none := by
  induction l with
  | nil => intro l' _ h; simp [dictDel] at h
  | cons hd rest ih =>
    intro l' hnd h
    obtain ⟨k', v'⟩ := hd
    simp only [nodupKeys, Bool.and_eq_true] at hnd
    by_cases hk : k' = k
    · subst hk
      simp only [dictDel, if_pos rfl] at h
      cases h
      have := hnd.1
      simp [Option.isNone_iff_eq_none] at this
      exact this
    · simp only [dictDel, if_neg hk] at h
      cases hrec : dictDel rest k with
      | none => rw [hrec] at h; simp at h
      | some l'' =>
        rw [hrec] at h; simp at h
        subst h
        simp [dictGet, hk, ih l'' hnd.2 hrec]

theorem nodupKeys_dictSet {α : Type} (l : List (String × α)) (k : String) (v : α)
    (h : nodupKeys l = true) : nodupKeys (dictSet l k v) = true := by
  induction l with
  | nil => simp [nodupKeys, dictSet, dictGet]
  | cons hd rest ih =>
    obtain ⟨k', v'⟩ := hd
    simp only [nodupKeys, Bool.and_eq_true] at h
    by_cases hk : k' = k
    · subst hk
      simp [dictSet, nodupKeys, h.1, h.2]
    · simp only [dictSet, if_neg hk, nodupKeys, Bool.and_eq_true]
      constructor
      · rw [dictGet_dictSet_ne rest k k' v hk]
        exact h.1
      · exact ih h.2

theorem nodupKeys_dictDel {α : Type} (l : List (String × α)) (k : String) :
    ∀ l', nodupKeys l = true → dictDel l k = some l' →
      nodupKeys l' = true := by
  induction l with
  | nil => intro l' _ h; simp [dictDel] at h
  | cons hd rest ih =>
    intro l' hnd h
    obtain ⟨k', v'⟩ := hd
    simp only [nodupKeys, Bool.and_eq_true] at hnd
    by_cases hk : k' = k
    · subst hk
      simp only [dictDel, if_pos rfl] at h
      cases h
      exact hnd.2
    · simp only [dictDel, if_neg hk] at h
      cases hrec : dictDel rest k with
      | none => rw [hrec] at h; simp at h
      | some l'' =>
        rw [hrec] at h; simp at h
        subst h
        simp only [nodupKeys, Bool.and_eq_true]
        refine ⟨?_, ih l'' hnd.2 hrec⟩
        rw [dictGet_dictDel_ne rest k k' hk l'' hrec]
        exact hnd.1

theorem length_dictSet_present {α : Type} (l : List (String × α)) (k : String) (v : α)
    (h : (dictGet l k).isSome = true) : (dictSet l k v).length = l.length := by
  induction l with
  | nil => simp [dictGet] at h
  | cons hd rest ih =>
    obtain ⟨k', v'⟩ := hd
    by_cases hk : k' = k
    · subst hk; simp [dictSet]
    · simp only [dictGet, if_neg hk] at h
      simp [dictSet, hk, ih h]

theorem length_dictSet_absent {α : Type} (l : List (String × α)) (k : String) (v : α)
    (h : dictGet l k = Option.none) : (dictSet l k v).length = l.length + 1 := by
  induction l with
  | nil => simp [dictSet]
  | cons hd rest ih =>
    obtain ⟨k', v'⟩ := hd
    by_cases hk : k' = k
    · subst hk; simp [dictGet] at h
    · simp only [dictGet, if_neg hk] at h
      simp [dictSet, hk, ih h]

theorem length_dictDel {α : Type} (l : List (String × α)) (k : String) :
    ∀ l', dictDel l k = some l' → l.length = l'.length + 1 := by
  induction l with
  | nil => intro l' h; simp [dictDel] at h
  | cons hd rest ih =>
    intro l' h
    obtain ⟨k', v'⟩ := hd
    by_cases hk : k' = k
    · simp only [dictDel, if_pos hk] at h
      cases h
      simp
    · simp only [dictDel, if_neg hk] at h
      cases hrec : dictDel rest k with
      | none => rw [hrec] at h; simp at h
      | some l'' =>
        rw [hrec] at h; simp at h
        subst h
        simp [ih l'' hrec]

theorem dictGet_mem {α : Type} (l : List (String × α)) (k : String) (v : α)
    (h : dictGet l k = some v) : (k, v) ∈ l := by
  induction l with
  | nil => simp [dictGet] at h
  | cons hd rest ih =>
    obtain ⟨k', v'⟩ := hd
    by_cases hk : k' = k
    · subst hk
      have hv : v' = v := by simpa [dictGet] using h
      subst hv
      exact List.mem_cons_self _ _
    · simp only [dictGet, if_neg hk] at h
      exact List.mem_cons_of_mem _ (ih h)

/-! ### Resolution and update lemmas -/

theorem walkS_eq_walk (l : List String) :
    ∀ n, walkS n l = walk n (l.filter (fun s => s != "")) := by
  induction l with
  | nil => intro n; rfl
  | cons s rest ih =>
    intro n
    by_cases hs : s = ""
    · subst hs
      simpa [walkS, List.filter] using ih n
    · have hb : (s != "") = true := by simpa using hs
      simp only [List.filter_cons, hb, if_true]
      cases n with
      | dir m es => simp [walkS, hs, walk, ih]
      | file m d => simp [walkS, hs, walk]
      | symlink m d => simp [walkS, hs, walk]
      | none m => simp [walkS, hs, walk]

theorem updateAtS_eq_updateAt (l : List String) :
    ∀ n f, updateAtS n l f = updateAt n (l.filter (fun s => s != "")) f := by
  induction l with
  | nil => intro n f; rfl
  | cons s rest ih =>
    intro n f
    by_cases hs : s = ""
    · subst hs
      simpa [updateAtS, List.filter] using ih n f
    · have hb : (s != "") = true := by simpa using hs
      simp only [List.filter_cons, hb, if_true]
      cases n with
      | dir m es =>
        cases hg : dictGet es s with
        | none => simp [updateAtS, hs, updateAt, hg, ih]
        | some c => simp [updateAtS, hs, updateAt, hg, ih]
      | file m d => simp [updateAtS, hs, updateAt]
      | symlink m d => simp [updateAtS, hs, updateAt]
      | none m => simp [updateAtS, hs, updateAt]

theorem walk_append (xs ys : List String) :
    ∀ n, walk n (xs ++ ys) = (walk n xs).bind (fun q => walk q ys) := by
  induction xs with
  | nil => intro n; simp [walk, Except.bind]
  | cons s rest ih =>
    intro n
    cases n with
    | dir m es => simpa [walk] using ih _
    | file m d => simp [walk, Except.bind]
    | symlink m d => simp [walk, Except.bind]
    | none m => simp [walk, Except.bind]

/-- Resolving a path to a real node and mutating it succeeds, and the
mutated node is what the same path resolves to afterward. -/
theorem walk_update_same (xs : List String) :
    ∀ (t q q' : Node) (f : Node → Except FsError Node),
      walk t xs = .ok q → q.isReal = true → f q = .ok q' →
      ∃ t', updateAt t xs f = .ok t' ∧ walk t' xs = .ok q' := by
  induction xs with
  | nil =>
    intro t q q' f hw hr hf
    simp only [walk, Except.ok.injEq] at hw
    subst hw
    exact ⟨q', by simpa [updateAt] using hf, by simp [walk]⟩
  | cons s rest ih =>
    intro t q q' f hw hr hf
    cases t with
    | dir m es =>
      cases hg : dictGet es s with
      | none =>
        exfalso
        rw [walk, hg] at hw
        cases rest with
        | nil =>
          simp only [Option.getD, walk, Except.ok.injEq] at hw
          subst hw
          simp [Node.isReal] at hr
        | cons r rs => simp [Option.getD, walk] at hw
      | some c =>
        rw [walk, hg] at hw
        simp only [Option.getD] at hw
        obtain ⟨c', hc1, hc2⟩ := ih c q q' f hw hr hf
        refine ⟨.dir m (dictSet es s c'), ?_, ?_⟩
        · simp [updateAt, hg, hc1, Except.map]
        · simp [walk, dictGet_dictSet_self, hc2]
    | file m d => simp [walk] at hw
    | symlink m d => simp [walk] at hw
    | none m => simp [walk] at hw

/-- A resolution that ends at a real node by stepping through a final
segment decomposes into the parent directory and a present entry. -/
theorem walk_snoc_real (xs : List String) (t n : Node) (k : String)
    (hw : walk t (xs ++ [k]) = .ok n) (hr : n.isReal = true) :
    ∃ dm es, walk t xs = .ok (.dir dm es) ∧ dictGet es k = some n := by
  rw [walk_append] at hw
  cases hq : walk t xs with
  | error e => rw [hq] at hw; simp [Except.bind] at hw
  | ok q =>
    rw [hq] at hw
    simp only [Except.bind] at hw
    cases q with
    | dir dm es =>
      cases hg : dictGet es k with
      | none =>
        exfalso
        rw [walk, hg] at hw
        simp only [Option.getD, walk, Except.ok.injEq] at hw
        subst hw
        simp [Node.isReal] at hr
      | some c =>
        rw [walk, hg] at hw
        simp only [Option.getD, walk, Except.ok.injEq] at hw
        subst hw
        exact ⟨dm, es, rfl, hg⟩
    | file m d => simp [walk] at hw
    | symlink m d => simp [walk] at hw
    | none m => simp [walk] at hw

/-! ### Well-formedness lemmas -/

theorem wfEntries_mem (es : List (String × Node)) (k : String) (c : Node)
    (hw : wfEntries es = true) (hm : (k, c) ∈ es) : Node.wfB c = true := by
  induction es with
  | nil => simp at hm
  | cons hd rest ih =>
    obtain ⟨k', c'⟩ := hd
    rw [wfEntries] at hw
    simp only [Bool.and_eq_true] at hw
    rcases List.mem_cons.mp hm with h | h
    · cases h; exact hw.1
    · exact ih hw.2 h

theorem wfB_nodup (m : NMeta) (es : List (String × Node))
    (h : Node.wfB (.dir m es) = true) : nodupKeys es = true := by
  rw [Node.wfB, Bool.and_eq_true] at h
  exact h.1

theorem wfB_child (m : NMeta) (es : List (String × Node)) (k : String) (c : Node)
    (h : Node.wfB (.dir m es) = true) (hg : dictGet es k = some c) :
    Node.wfB c = true := by
  rw [Node.wfB, Bool.and_eq_true] at h
  exact wfEntries_mem es k c h.2 (dictGet_mem es k c hg)

theorem wfB_notDir (t : Node) (h : ∀ m es, t ≠ .dir m es) : Node.wfB t = true := by
  cases t with
  | dir m es => exact absurd rfl (h m es)
  | file m d => rw [Node.wfB]
  | symlink m d => rw [Node.wfB]
  | none m => rw [Node.wfB]

theorem wfB_walk (xs : List String) :
    ∀ t n, Node.wfB t = true → walk t xs = .ok n → Node.wfB n = true := by
  induction xs with
  | nil =>
    intro t n hw h
    simp only [walk, Except.ok.injEq] at h
    subst h; exact hw
  | cons s rest ih =>
    intro t n hw h
    cases t with
    | dir m es =>
      cases hg : dictGet es s with
      | none =>
        rw [walk, hg] at h
        simp only [Option.getD] at h
        refine ih _ _ ?_ h
        exact wfB_notDir _ (by intro a b hc; cases hc)
      | some c =>
        rw [walk, hg] at h
        simp only [Option.getD] at h
        exact ih c n (wfB_child m es s c hw hg) h
    | file m d => simp [walk] at h
    | symlink m d => simp [walk] at h
    | none m => simp [walk] at h

theorem walk_none_of_ne (m : NMeta) (l : List String) (h : l ≠ []) :
    walk (.none m) l = .error .attributeError := by
  cases l with
  | nil => exact absurd rfl h
  | cons a as => simp [walk]

theorem walk_file_of_ne (m : NMeta) (d : List Nat) (l : List String) (h : l ≠ []) :
    walk (.file m d) l = .error .attributeError := by
  cases l with
  | nil => exact absurd rfl h
  | cons a as => simp [walk]

/-- Deleting the final entry of a slot whose path resolves to a real node
succeeds, and afterwards that path resolves to the sentinel. -/
theorem del_core (O : List String) :
    ∀ (t oldn : Node) (ofn : String),
      Node.wfB t = true → oldn.isReal = true →
      walk t (O ++ [ofn]) = .ok oldn →
      ∃ t2, updateAt t O (delF ofn) = .ok t2 ∧
        walk t2 (O ++ [ofn]) = .ok (.none noneMeta) := by
  induction O with
  | nil =>
    intro t oldn ofn hwf hr hw
    obtain ⟨dm, es, hpw, hg⟩ := walk_snoc_real [] t oldn ofn hw hr
    simp only [walk, Except.ok.injEq] at hpw
    subst hpw
    obtain ⟨es', hdel⟩ := dictDel_of_get es ofn oldn hg
    refine ⟨.dir dm es', ?_, ?_⟩
    · simp [updateAt, delF, hdel]
    · have hnone : dictGet es' ofn = Option.none :=
        dictGet_dictDel_self es ofn es' (wfB_nodup dm es hwf) hdel
      simp [walk, hnone, Option.getD]
  | cons s rest ih =>
    intro t oldn ofn hwf hr hw
    cases t with
    | dir m es =>
      rw [List.cons_append, walk] at hw
      cases hg : dictGet es s with
      | none =>
        exfalso
        rw [hg] at hw
        simp only [Option.getD] at hw
        rw [walk_none_of_ne _ _ (by simp)] at hw
        cases hw
      | some c =>
        rw [hg] at hw
        simp only [Option.getD] at hw
        obtain ⟨c2, hdel, hlook⟩ := ih c oldn ofn (wfB_child m es s c hwf hg) hr hw
        refine ⟨.dir m (dictSet es s c2), ?_, ?_⟩
        · simp [updateAt, hg, hdel, Except.map]
        · rw [List.cons_append, walk, dictGet_dictSet_self]
          simpa [Option.getD] using hlook
    | file mm d =>
      rw [walk_file_of_ne _ _ _ (by simp)] at hw
      cases hw
    | symlink mm d => simp [walk] at hw
    | none mm =>
      rw [walk_none_of_ne _ _ (by simp)] at hw
      cases hw

/-- The insert-then-delete core of `rename`: with a source slot
(`O`, `ofn`) holding a real node and a destination parent `N` resolving to
a directory, and neither full slot path a prefix of the other, the
insertion and the deletion both succeed, after which the destination path
resolves to the moved node and the source path to the sentinel. -/
theorem rename_core (O : List String) :
    ∀ (t oldn : Node) (N : List String) (ofn nfn : String) (nm : NMeta)
      (nes : List (String × Node)),
      Node.wfB t = true → oldn.isReal = true →
      walk t (O ++ [ofn]) = .ok oldn →
      walk t N = .ok (.dir nm nes) →
      leadsB (N ++ [nfn]) (O ++ [ofn]) = false →
      leadsB (O ++ [ofn]) (N ++ [nfn]) = false →
      ∃ t1 t2,
        updateAt t N (insF nfn oldn) = .ok t1 ∧
        updateAt t1 O (delF ofn) = .ok t2 ∧
        walk t2 (N ++ [nfn]) = .ok oldn ∧
        walk t2 (O ++ [ofn]) = .ok (.none noneMeta) := by
  induction O with
  | nil =>
    intro t oldn N ofn nfn nm nes hwf hr hwo hwn hp1 hp2
    obtain ⟨dm, es, hpw, hg⟩ := walk_snoc_real [] t oldn ofn hwo hr
    simp only [walk, Except.ok.injEq] at hpw
    subst hpw
    cases N with
    | nil =>
      have hne : nfn ≠ ofn := by
        simpa [leadsB] using hp1
      have hgset : dictGet (dictSet es nfn oldn) ofn = some oldn := by
        rw [dictGet_dictSet_ne es nfn ofn oldn (Ne.symm hne)]
        exact hg
      obtain ⟨es2, hdel⟩ := dictDel_of_get _ ofn oldn hgset
      refine ⟨.dir dm (dictSet es nfn oldn), .dir dm es2, ?_, ?_, ?_, ?_⟩
      · simp [updateAt, insF]
      · simp [updateAt, delF, hdel]
      · rw [List.nil_append, walk, dictGet_dictDel_ne _ ofn nfn hne es2 hdel,
           dictGet_dictSet_self]
        simp [Option.getD, walk]
      · have hnd : nodupKeys (dictSet es nfn oldn) = true :=
          nodupKeys_dictSet es nfn oldn (wfB_nodup dm es hwf)
        rw [List.nil_append, walk, dictGet_dictDel_self _ ofn es2 hnd hdel]
        simp [Option.getD, walk]
    | cons s N' =>
      have hofs : ofn ≠ s := by
        simpa [leadsB] using hp2
      rw [walk] at hwn
      cases hgs : dictGet es s with
      | none =>
        exfalso
        rw [hgs] at hwn
        simp only [Option.getD] at hwn
        cases N' with
        | nil => simp [walk] at hwn
        | cons a as => simp [walk] at hwn
      | some c =>
        rw [hgs] at hwn
        simp only [Option.getD] at hwn
        obtain ⟨c1, hc1, hc1w⟩ :=
          walk_update_same N' c (.dir nm nes) (.dir nm (dictSet nes nfn oldn))
            (insF nfn oldn) hwn rfl rfl
        have hgset : dictGet (dictSet es s c1) ofn = some oldn := by
          rw [dictGet_dictSet_ne es s ofn c1 hofs]
          exact hg
        obtain ⟨es2, hdel⟩ := dictDel_of_get _ ofn oldn hgset
        refine ⟨.dir dm (dictSet es s c1), .dir dm es2, ?_, ?_, ?_, ?_⟩
        · simp [updateAt, hgs, hc1, Except.map]
        · simp [updateAt, delF, hdel]
        · rw [List.cons_append, walk,
             dictGet_dictDel_ne _ ofn s (Ne.symm hofs) es2 hdel,
             dictGet_dictSet_self]
          simp only [Option.getD]
          rw [walk_append]
          rw [hc1w]
          simp only [Except.bind]
          rw [walk, dictGet_dictSet_self]
          simp [Option.getD, walk]
        · have hnd : nodupKeys (dictSet es s c1) = true :=
            nodupKeys_dictSet es s c1 (wfB_nodup dm es hwf)
          rw [List.nil_append, walk, dictGet_dictDel_self _ ofn es2 hnd hdel]
          simp [Option.getD, walk]
  | cons s O' ih =>
    intro t oldn N ofn nfn nm nes hwf hr hwo hwn hp1 hp2
    cases t with
    | dir m es =>
      rw [List.cons_append, walk] at hwo
      cases hgs : dictGet es s with
      | none =>
        exfalso
        rw [hgs] at hwo
        simp only [Option.getD] at hwo
        rw [walk_none_of_ne _ _ (by simp)] at hwo
        cases hwo
      | some c =>
        rw [hgs] at hwo
        simp only [Option.getD] at hwo
        have hwfc : Node.wfB c = true := wfB_child m es s c hwf hgs
        cases N with
        | nil =>
          have hns : nfn ≠ s := by
            simpa [leadsB] using hp1
          have hgset : dictGet (dictSet es nfn oldn) s = some c := by
            rw [dictGet_dictSet_ne es nfn s oldn (Ne.symm hns)]
            exact hgs
          obtain ⟨c2, hdc1, hdc2⟩ := del_core O' c oldn ofn hwfc hr hwo
          refine ⟨.dir m (dictSet es nfn oldn),
                  .dir m (dictSet (dictSet es nfn oldn) s c2), ?_, ?_, ?_, ?_⟩
          · simp [updateAt, insF]
          · simp [updateAt, hgset, hdc1, Except.map]
          · rw [List.nil_append, walk,
               dictGet_dictSet_ne _ s nfn c2 hns, dictGet_dictSet_self]
            simp [Option.getD, walk]
          · rw [List.cons_append, walk, dictGet_dictSet_self]
            simpa [Option.getD] using hdc2
        | cons s' N' =>
          rw [walk] at hwn
          by_cases hss : s' = s
          · subst hss
            rw [hgs] at hwn
            simp only [Option.getD] at hwn
            have hp1' : leadsB (N' ++ [nfn]) (O' ++ [ofn]) = false := by
              simpa [leadsB] using hp1
            have hp2' : leadsB (O' ++ [ofn]) (N' ++ [nfn]) = false := by
              simpa [leadsB] using hp2
            obtain ⟨c1, c2, h1, h2, h3, h4⟩ :=
              ih c oldn N' ofn nfn nm nes hwfc hr hwo hwn hp1' hp2'
            refine ⟨.dir m (dictSet es s' c1),
                    .dir m (dictSet (dictSet es s' c1) s' c2), ?_, ?_, ?_, ?_⟩
            · simp [updateAt, hgs, h1, Except.map]
            · simp [updateAt, dictGet_dictSet_self, h2, Except.map]
            · rw [List.cons_append, walk, dictGet_dictSet_self]
              simpa [Option.getD] using h3
            · rw [List.cons_append, walk, dictGet_dictSet_self]
              simpa [Option.getD] using h4
          · cases hgn : dictGet es s' with
            | none =>
              exfalso
              rw [hgn] at hwn
              simp only [Option.getD] at hwn
              cases N' with
              | nil => simp [walk] at hwn
              | cons a as => simp [walk] at hwn
            | some cN =>
              rw [hgn] at hwn
              simp only [Option.getD] at hwn
              obtain ⟨cN1, hcN1, hcN1w⟩ :=
                walk_update_same N' cN (.dir nm nes) (.dir nm (dictSet nes nfn oldn))
                  (insF nfn oldn) hwn rfl rfl
              have hgc : dictGet (dictSet es s' cN1) s = some c := by
                rw [dictGet_dictSet_ne es s' s cN1 (fun hh => hss hh.symm)]
                exact hgs
              obtain ⟨c2, hdc1, hdc2⟩ := del_core O' c oldn ofn hwfc hr hwo
              refine ⟨.dir m (dictSet es s' cN1),
                      .dir m (dictSet (dictSet es s' cN1) s c2), ?_, ?_, ?_, ?_⟩
              · simp [updateAt, hgn, hcN1, Except.map]
              · simp [updateAt, hgc, hdc1, Except.map]
              · rw [List.cons_append, walk,
                   dictGet_dictSet_ne _ s s' c2 hss, dictGet_dictSet_self]
                simp only [Option.getD]
                rw [walk_append, hcN1w]
                simp only [Except.bind]
                rw [walk, dictGet_dictSet_self]
                simp [Option.getD, walk]
              · rw [List.cons_append, walk, dictGet_dictSet_self]
                simpa [Option.getD] using hdc2
    | file mm d =>
      rw [walk_file_of_ne _ _ _ (by simp)] at hwo
      cases hwo
    | symlink mm d => simp [walk] at hwo
    | none mm =>
      rw [walk_none_of_ne _ _ (by simp)] at hwo
      cases hwo

/-! ### Link count invariant lemmas -/

theorem mrInv_dir_parts (mm : NMeta) (es : List (String × Node))
    (h : Node.mrInv (.dir mm es) = true) :
    mm.nlink = 2 + (es.length : Int) ∧ nodupKeys es = true ∧ mrEntries es = true := by
  rw [Node.mrInv] at h
  simp only [Bool.and_eq_true, beq_iff_eq] at h
  exact ⟨h.1.1, h.1.2, h.2⟩

theorem mrInv_isDir (q : Node) (h : Node.mrInv q = true) :
    ∃ mm es, q = .dir mm es := by
  cases q with
  | dir mm es => exact ⟨mm, es, rfl⟩
  | file mm d => rw [Node.mrInv] at h; cases h
  | symlink mm d => rw [Node.mrInv] at h; cases h
  | none mm => rw [Node.mrInv] at h; cases h

theorem mrEntries_mem (es : List (String × Node)) (k : String) (c : Node)
    (hw : mrEntries es = true) (hm : (k, c) ∈ es) : Node.mrInv c = true := by
  induction es with
  | nil => simp at hm
  | cons hd rest ih =>
    obtain ⟨k', c'⟩ := hd
    rw [mrEntries] at hw
    simp only [Bool.and_eq_true] at hw
    rcases List.mem_cons.mp hm with h | h
    · cases h; exact hw.1
    · exact ih hw.2 h

theorem mrInv_child (mm : NMeta) (es : List (String × Node)) (k : String) (c : Node)
    (h : Node.mrInv (.dir mm es) = true) (hg : dictGet es k = some c) :
    Node.mrInv c = true :=
  mrEntries_mem es k c (mrInv_dir_parts mm es h).2.2 (dictGet_mem es k c hg)

theorem mrEntries_dictSet (es : List (String × Node)) (k : String) (v : Node)
    (he : mrEntries es = true) (hv : Node.mrInv v = true) :
    mrEntries (dictSet es k v) = true := by
  induction es with
  | nil => simp [dictSet, mrEntries, hv]
  | cons hd rest ih =>
    obtain ⟨k', c'⟩ := hd
    rw [mrEntries] at he
    simp only [Bool.and_eq_true] at he
    by_cases hk : k' = k
    · subst hk
      simp only [dictSet, if_pos rfl, mrEntries]
      simp [hv, he.2]
    · simp only [dictSet, if_neg hk, mrEntries]
      simp [he.1, ih he.2]

theorem mrEntries_dictDel (es : List (String × Node)) (k : String) :
    ∀ es', mrEntries es = true → dictDel es k = some es' →
      mrEntries es' = true := by
  induction es with
  | nil => intro es' _ h; simp [dictDel] at h
  | cons hd rest ih =>
    intro es' he h
    obtain ⟨k', c'⟩ := hd
    rw [mrEntries] at he
    simp only [Bool.and_eq_true] at he
    by_cases hk : k' = k
    · simp only [dictDel, if_pos hk] at h
      cases h
      exact he.2
    · simp only [dictDel, if_neg hk] at h
      cases hrec : dictDel rest k with
      | none => rw [hrec] at h; simp at h
      | some l'' =>
        rw [hrec] at h; simp at h
        subst h
        rw [mrEntries]
        simp [he.1, ih l'' he.2 hrec]

theorem mrInv_walk (xs : List String) :
    ∀ t q, Node.mrInv t = true → walk t xs = .ok q →
      Node.mrInv q = true ∨ q = .none noneMeta := by
  induction xs with
  | nil =>
    intro t q hi h
    simp only [walk, Except.ok.injEq] at h
    subst h
    exact Or.inl hi
  | cons s rest ih =>
    intro t q hi h
    obtain ⟨mm, es, rfl⟩ := mrInv_isDir t hi
    cases hg : dictGet es s with
    | none =>
      rw [walk, hg] at h
      simp only [Option.getD] at h
      cases rest with
      | nil =>
        simp only [walk, Except.ok.injEq] at h
        exact Or.inr h.symm
      | cons a as => simp [walk] at h
    | some c =>
      rw [walk, hg] at h
      simp only [Option.getD] at h
      exact ih c q (mrInv_child mm es s c hi hg) h

/-- A mutation that preserves the link count invariant at every node it
can be applied to preserves it globally. -/
theorem updateAt_mrInv (xs : List String) :
    ∀ (t t' : Node) (f : Node → Except FsError Node),
      Node.mrInv t = true →
      (∀ n n', Node.mrInv n = true → f n = .ok n' → Node.mrInv n' = true) →
      updateAt t xs f = .ok t' → Node.mrInv t' = true := by
  induction xs with
  | nil =>
    intro t t' f hi hf h
    simp only [updateAt] at h
    exact hf t t' hi h
  | cons s rest ih =>
    intro t t' f hi hf h
    obtain ⟨mm, es, rfl⟩ := mrInv_isDir t hi
    cases hg : dictGet es s with
    | none =>
      simp only [updateAt, hg] at h
      cases hrec : updateAt (.none noneMeta) rest f with
      | error e => rw [hrec] at h; simp [Except.map] at h
      | ok u =>
        rw [hrec] at h
        simp only [Except.map, Except.ok.injEq] at h
        subst h
        exact hi
    | some c =>
      simp only [updateAt, hg] at h
      cases hrec : updateAt c rest f with
      | error e => rw [hrec] at h; simp [Except.map] at h
      | ok c' =>
        rw [hrec] at h
        simp only [Except.map, Except.ok.injEq] at h
        subst h
        have hic' : Node.mrInv c' = true :=
          ih c c' f (mrInv_child mm es s c hi hg) hf hrec
        obtain ⟨hn, hnd, hme⟩ := mrInv_dir_parts mm es hi
        rw [Node.mrInv]
        simp only [Bool.and_eq_true, beq_iff_eq]
        refine ⟨⟨?_, nodupKeys_dictSet es s c' hnd⟩, mrEntries_dictSet es s c' hme hic'⟩
        rw [length_dictSet_present es s c' (by rw [hg]; rfl)]
        exact hn

/-- Mutating the real node a path resolves to, when the mutated node keeps
the link count invariant, preserves the invariant globally and the path
then resolves to the mutated node. -/
theorem walk_update_mrInv (xs : List String) :
    ∀ (t q q' : Node) (f : Node → Except FsError Node),
      Node.mrInv t = true →
      walk t xs = .ok q → q.isReal = true →
      f q = .ok q' → Node.mrInv q' = true →
      ∃ t', updateAt t xs f = .ok t' ∧ Node.mrInv t' = true ∧
        walk t' xs = .ok q' := by
  induction xs with
  | nil =>
    intro t q q' f hi hw hr hf hi'
    simp only [walk, Except.ok.injEq] at hw
    subst hw
    exact ⟨q', by simpa [updateAt] using hf, hi', by simp [walk]⟩
  | cons s rest ih =>
    intro t q q' f hi hw hr hf hi'
    obtain ⟨mm, es, rfl⟩ := mrInv_isDir t hi
    cases hg : dictGet es s with
    | none =>
      exfalso
      rw [walk, hg] at hw
      simp only [Option.getD] at hw
      cases rest with
      | nil =>
        simp only [walk, Except.ok.injEq] at hw
        subst hw
        simp [Node.isReal] at hr
      | cons a as => simp [walk] at hw
    | some c =>
      rw [walk, hg] at hw
      simp only [Option.getD] at hw
      obtain ⟨c', h1, h2, h3⟩ :=
        ih c q q' f (mrInv_child mm es s c hi hg) hw hr hf hi'
      refine ⟨.dir mm (dictSet es s c'), ?_, ?_, ?_⟩
      · simp [updateAt, hg, h1, Except.map]
      · obtain ⟨hn, hnd, hme⟩ := mrInv_dir_parts mm es hi
        rw [Node.mrInv]
        simp only [Bool.and_eq_true, beq_iff_eq]
        refine ⟨⟨?_, nodupKeys_dictSet es s c' hnd⟩, mrEntries_dictSet es s c' hme h2⟩
        rw [length_dictSet_present es s c' (by rw [hg]; rfl)]
        exact hn
      · simp [walk, dictGet_dictSet_self, h3]

theorem mrInv_dirNode (mode now : Nat) : Node.mrInv (dirNode mode now) = true := by
  rw [dirNode, Node.mrInv]
  simp [nodupKeys, mrEntries, baseMeta]

/-- Every state reachable by fresh mkdir and successful rmdir requests
satisfies the link count invariant at every directory. -/
theorem reachMR_inv (m : Memory) (h : ReachMR m) : Node.mrInv m.fs_root = true := by
  induction h with
  | base now =>
    simpa [Memory.init] using mrInv_dirNode 0o755 now
  | step_mk hre hsplit hdecomp hfresh hmk ihInv =>
    rename_i m m' p pp fn mode now
    rw [Memory.mkdir, hsplit] at hmk
    simp only [Except.bind] at hmk
    cases hup : updateAtS m.fs_root (pyParts pp) (fun n =>
        match n with
        | .dir dm es =>
            .ok (.dir { dm with nlink := dm.nlink + 1 }
                   (dictSet es fn (dirNode mode now)))
        | _ => .error .attributeError) with
    | error e => rw [hup] at hmk; cases hmk
    | ok root' =>
      rw [hup] at hmk
      simp only [Except.ok.injEq] at hmk
      subst hmk
      have hup' : updateAt m.fs_root (pyPartsF pp) (fun n =>
          match n with
          | .dir dm es =>
              .ok (.dir { dm with nlink := dm.nlink + 1 }
                     (dictSet es fn (dirNode mode now)))
          | _ => .error .attributeError) = .ok root' := by
        have h2 := hup
        rw [updateAtS_eq_updateAt] at h2
        exact h2
      have hfresh' : walk m.fs_root (pyPartsF p) = .ok (.none noneMeta) := by
        rw [Memory.get_node, walkS_eq_walk] at hfresh
        exact hfresh
      rw [hdecomp, walk_append] at hfresh'
      cases hq : walk m.fs_root (pyPartsF pp) with
      | error e => rw [hq] at hfresh'; simp [Except.bind] at hfresh'
      | ok q =>
        rw [hq] at hfresh'
        simp only [Except.bind] at hfresh'
        rcases mrInv_walk (pyPartsF pp) m.fs_root q ihInv hq with hqi | hqn
        · obtain ⟨qm, qes, rfl⟩ := mrInv_isDir q hqi
          rw [walk] at hfresh'
          cases hgf : dictGet qes fn with
          | some c =>
            exfalso
            rw [hgf] at hfresh'
            simp only [Option.getD, walk, Except.ok.injEq] at hfresh'
            have hci : Node.mrInv c = true := mrInv_child qm qes fn c hqi hgf
            rw [hfresh', Node.mrInv] at hci
            cases hci
          | none =>
            obtain ⟨hn, hnd, hme⟩ := mrInv_dir_parts qm qes hqi
            have hinv' : Node.mrInv (.dir { qm with nlink := qm.nlink + 1 }
                (dictSet qes fn (dirNode mode now))) = true := by
              rw [Node.mrInv]
              simp only [Bool.and_eq_true, beq_iff_eq]
              refine ⟨⟨?_, nodupKeys_dictSet qes fn _ hnd⟩,
                      mrEntries_dictSet qes fn _ hme (mrInv_dirNode mode now)⟩
              rw [length_dictSet_absent qes fn _ hgf, hn]
              push_cast
              ring
            obtain ⟨root'', hupd2, hinv2, _⟩ :=
              walk_update_mrInv (pyPartsF pp) m.fs_root (.dir qm qes)
                (.dir { qm with nlink := qm.nlink + 1 }
                   (dictSet qes fn (dirNode mode now)))
                (fun n =>
                  match n with
                  | .dir dm es =>
                      .ok (.dir { dm with nlink := dm.nlink + 1 }
                             (dictSet es fn (dirNode mode now)))
                  | _ => .error .attributeError)
                ihInv hq rfl rfl hinv'
            have hdet := hup'.symm.trans hupd2
            simp only [Except.ok.injEq] at hdet
            subst hdet
            simpa using hinv2
        · exfalso
          subst hqn
          rw [walk_none_of_ne _ _ (by simp)] at hfresh'
          cases hfresh'
  | step_rm hre hrm ihInv =>
    rename_i m m' p
    rw [Memory.rmdir] at hrm
    cases hsp : split_parent_and_filename p with
    | error e => rw [hsp] at hrm; simp [Except.bind] at hrm
    | ok pf =>
      rw [hsp] at hrm
      simp only [Except.bind] at hrm
      cases hup : updateAtS m.fs_root (pyParts pf.1) (fun n =>
          match n with
          | .dir dm es =>
              match dictDel es pf.2 with
              | some es' => .ok (.dir { dm with nlink := dm.nlink - 1 } es')
              | Option.none => .error (.keyError pf.2)
          | _ => .error .attributeError) with
      | error e => rw [hup] at hrm; cases hrm
      | ok root' =>
        rw [hup] at hrm
        simp only [Except.ok.injEq] at hrm
        subst hrm
        have hup' : updateAt m.fs_root (pyPartsF pf.1) (fun n =>
            match n with
            | .dir dm es =>
                match dictDel es pf.2 with
                | some es' => .ok (.dir { dm with nlink := dm.nlink - 1 } es')
                | Option.none => .error (.keyError pf.2)
            | _ => .error .attributeError) = .ok root' := by
          have h2 := hup
          rw [updateAtS_eq_updateAt] at h2
          exact h2
        have hpres : ∀ n n', Node.mrInv n = true →
            (fun n =>
              match n with
              | Node.dir dm es =>
                  match dictDel es pf.2 with
                  | some es' => Except.ok (Node.dir { dm with nlink := dm.nlink - 1 } es')
                  | Option.none => Except.error (FsError.keyError pf.2)
              | _ => Except.error FsError.attributeError) n = .ok n' →
            Node.mrInv n' = true := by
          intro n n' hin hgn
          obtain ⟨dm, es, rfl⟩ := mrInv_isDir n hin
          simp only at hgn
          cases hdel : dictDel es pf.2 with
          | none => rw [hdel] at hgn; cases hgn
          | some es' =>
            rw [hdel] at hgn
            simp only [Except.ok.injEq] at hgn
            subst hgn
            obtain ⟨hn, hnd, hme⟩ := mrInv_dir_parts dm es hin
            rw [Node.mrInv]
            simp only [Bool.and_eq_true, beq_iff_eq]
            refine ⟨⟨?_, nodupKeys_dictDel es pf.2 es' hnd hdel⟩,
                    mrEntries_dictDel es pf.2 es' hme hdel⟩
            have hlen : es.length = es'.length + 1 := length_dictDel es pf.2 es' hdel
            rw [hn, hlen]
            push_cast
            ring
        have := updateAt_mrInv (pyPartsF pf.1) m.fs_root root' _ ihInv hpres hup'
        simpa using this

theorem walk_error (l : List String) :
    ∀ t e, walk t l = .error e → e = .attributeError := by
  induction l with
  | nil => intro t e h; simp [walk] at h
  | cons s rest ih =>
    intro t e h
    cases t with
    | dir m es => rw [walk] at h; exact ih _ e h
    | file m d => rw [walk] at h; cases h; rfl
    | symlink m d => rw [walk] at h; cases h; rfl
    | none m => rw [walk] at h; cases h; rfl

theorem walkS_error (l : List String) (t : Node) (e : FsError)
    (h : walkS t l = .error e) : e = .attributeError := by
  rw [walkS_eq_walk] at h
  exact walk_error _ t e h

theorem meta_withXattr (n : Node) (k : String) (v : List Nat) :
    (n.withXattr k v).meta.xattrs = dictSet n.meta.xattrs k v := by
  cases n with
  | dir m es => rfl
  | file m d => rfl
  | symlink m d => rfl
  | none m => rfl

/-! ### Sample states used by the witnesses -/

/-- Metadata of the mount root with timestamps 0. -/
def rootMetaA : NMeta :=
  { mode := 0o40755, ctime := 0, mtime := 0, atime := 0,
    nlink := 2, uid := 0, gid := 0, xattrs := [] }

/-- Metadata of a file created with mode `0644` at time 0. -/
def fileMetaA : NMeta :=
  { mode := 0o100644, ctime := 0, mtime := 0, atime := 0,
    nlink := 1, uid := 0, gid := 0, xattrs := [] }

/-- Metadata of a symlink node (`SymLinkNode(mode=0777)`) at time 0. -/
def linkMetaA : NMeta :=
  { mode := 0o120777, ctime := 0, mtime := 0, atime := 0,
    nlink := 1, uid := 0, gid := 0, xattrs := [] }

/-- A state holding one regular file `/a` with content `hi`. -/
def fsFile : Memory :=
  { files := [("/", { xattrsStored := Option.none })],
    fd := 1,
    fs_root := .dir rootMetaA [("a", .file fileMetaA [104, 105])] }

/-- A state holding one symlink `/l` whose target text is `t`. -/
def fsLink : Memory :=
  { files := [("/", { xattrsStored := Option.none })],
    fd := 0,
    fs_root := .dir rootMetaA [("l", .symlink linkMetaA [116])] }

/-- A state holding one empty subdirectory `/d`, with the root link count
already bumped to 3. -/
def fsDir : Memory :=
  { files := [("/", { xattrsStored := Option.none })],
    fd := 0,
    fs_root := .dir { rootMetaA with nlink := 3 } [("d", dirNode 0o755 0)] }

theorem fsFile_wf : Node.wfB fsFile.fs_root = true := by
  simp [fsFile, Node.wfB, wfEntries, nodupKeys, dictGet]

/-! ### C1 -/

/-- C1 (amended): whenever resolution returns the missing-node sentinel,
`getattr` fails with NoSuchEntry; when resolution itself raises (an
`AttributeError` from descending through a missing or non-directory
intermediate), `getattr` propagates that untyped error instead; and on a
fresh mount `getattr("/")` succeeds and reports a directory file type. -/
theorem c1_getattr_resolution :
    (∀ (m : Memory) (p : String) (nm : NMeta),
        m.get_node p = .ok (.none nm) → m.getattr p = .error .enoent)
    ∧ (∀ (m : Memory) (p : String) (e : FsError),
        m.get_node p = .error e → m.getattr p = .error e)
    ∧ (∀ now : Nat, ∃ a : Attrs,
        (Memory.init now).getattr "/" = .ok a ∧ a.st_mode = 0o40755)
    ∧ (0o40755 : Nat) &&& 0o170000 = 0o040000 := by
  refine ⟨?_, ?_, ?_, by decide⟩
  · intro m p nm h
    simp only [Memory.getattr, h, Except.bind]
    rfl
  · intro m p e h
    simp only [Memory.getattr, h, Except.bind]
  · intro now
    refine ⟨{ st_mode := 0o40755, st_ctime := now, st_mtime := now, st_atime := now,
              st_nlink := 2, st_uid := 0, st_gid := 0, st_size := 0 }, rfl, rfl⟩

theorem c1_getattr_resolution_witness :
    (Memory.init 5).getattr "/missing" = .error .enoent ∧
    (Memory.init 5).getattr "/miss/deep" = .error .attributeError ∧
    ∃ a : Attrs, (Memory.init 5).getattr "/" = .ok a ∧ a.st_mode = 0o40755 :=
  ⟨c1_getattr_resolution.1 (Memory.init 5) "/missing" noneMeta rfl,
   c1_getattr_resolution.2.1 (Memory.init 5) "/miss/deep" .attributeError rfl,
   c1_getattr_resolution.2.2.1 5⟩

/-- C1 counterexample: on a fresh mount the path `/a/b` does not resolve
to any node, yet `getattr` raises an untyped `AttributeError` (descending
from the sentinel) instead of failing with NoSuchEntry. -/
theorem c1_counterexample :
    (Memory.init 0).getattr "/a/b" = .error .attributeError ∧
    FsError.attributeError ≠ FsError.enoent :=
  ⟨rfl, by decide⟩

/-! ### C2 -/

/-- C2 (amended): failures are not always structured.  `getattr` fails
only with the typed NoSuchEntry or an untyped `AttributeError`; `unlink`
of an absent entry raises an uncaught `KeyError`; resolution through a
missing intermediate raises an uncaught `AttributeError`; a path without
a separator makes the parent split raise `ValueError`; and none of those
three is a typed failure. -/
theorem c2_error_discipline :
    (∀ (m : Memory) (p : String) (e : FsError),
        m.getattr p = .error e → e = .enoent ∨ e = .attributeError)
    ∧ (Memory.init 0).unlink "/gone" = .error (.keyError "gone")
    ∧ (Memory.init 0).getattr "/miss/child" = .error .attributeError
    ∧ (Memory.init 0).create "nopath" 0o644 0 = .error .valueError
    ∧ FsError.isTyped (.keyError "gone") = false
    ∧ FsError.isTyped .attributeError = false
    ∧ FsError.isTyped .valueError = false := by
  refine ⟨?_, rfl, rfl, rfl, rfl, rfl, rfl⟩
  intro m p e h
  cases hg : m.get_node p with
  | error e' =>
    have he' : e' = .attributeError := walkS_error (pyParts p) m.fs_root e' hg
    simp only [Memory.getattr, hg, Except.bind] at h
    cases h
    exact Or.inr he'
  | ok n =>
    simp only [Memory.getattr, hg, Except.bind] at h
    cases n with
    | dir mm es => simp [Node.attrs] at h
    | file mm d => simp [Node.attrs] at h
    | symlink mm d => simp [Node.attrs] at h
    | none mm =>
      rw [Node.attrs] at h
      cases h
      exact Or.inl rfl

theorem c2_error_discipline_witness :
    FsError.enoent = .enoent ∨ FsError.enoent = .attributeError :=
  c2_error_discipline.1 (Memory.init 3) "/nothere" .enoent rfl

/-- C2 counterexample: `rmdir` of an absent entry raises an uncaught
`KeyError`, which is not one of the structured typed failures. -/
theorem c2_counterexample :
    (Memory.init 0).rmdir "/x" = .error (.keyError "x") ∧
    FsError.isTyped (.keyError "x") = false :=
  ⟨rfl, rfl⟩

/-! ### C3 -/

/-- C3 (code bug): with an existing file `/a` (whose attributes are
readable), `removexattr("/a", "k")` raises an uncaught `KeyError`
instead of succeeding silently, because the method looks `path` up in the
legacy `files` mapping (which only ever contains `/`) rather than
resolving the node. -/
theorem c3_removexattr_keyError :
    ((Memory.init 0).create "/a" 0o644 0).bind (fun pr => pr.1.getattr "/a")
      = .ok { st_mode := 0o100644, st_ctime := 0, st_mtime := 0, st_atime := 0,
              st_nlink := 1, st_uid := 0, st_gid := 0, st_size := 0 }
    ∧ ((Memory.init 0).create "/a" 0o644 0).bind
        (fun pr => pr.1.removexattr "/a" "k")
      = .error (.keyError "/a") :=
  ⟨rfl, rfl⟩

/-! ### C4 -/

/-- C4 (amended): renaming a file with content `C` makes the new path
resolve to the same node with content `C` and the old path fail with
NoSuchEntry, provided old and new denote distinct (parent, leaf) slots and
the slot path of the destination is not a prefix of the old path (when the
two coincide — `rename(p, p)` — the insertion and deletion hit the same
slot and the entry disappears instead). -/
theorem c4_rename_moves_content (m : Memory)
    (old_path new_path opp ofn npp nfn : String)
    (fm nm : NMeta) (C : List Nat) (nes : List (String × Node))
    (hwf : Node.wfB m.fs_root = true)
    (hso : split_parent_and_filename old_path = .ok (opp, ofn))
    (hsn : split_parent_and_filename new_path = .ok (npp, nfn))
    (hdo : pyPartsF old_path = pyPartsF opp ++ [ofn])
    (hdn : pyPartsF new_path = pyPartsF npp ++ [nfn])
    (hold : m.get_node old_path = .ok (.file fm C))
    (hnp : m.get_node npp = .ok (.dir nm nes))
    (hpre1 : leadsB (pyPartsF npp ++ [nfn]) (pyPartsF opp ++ [ofn]) = false)
    (hpre2 : leadsB (pyPartsF opp ++ [ofn]) (pyPartsF npp ++ [nfn]) = false) :
    ∃ m', m.rename old_path new_path = .ok m' ∧
      m'.get_node new_path = .ok (.file fm C) ∧
      m'.getattr old_path = .error .enoent := by
  have hwo : walk m.fs_root (pyPartsF opp ++ [ofn]) = .ok (.file fm C) := by
    rw [← hdo]
    have h2 := hold
    rw [Memory.get_node, walkS_eq_walk] at h2
    exact h2
  have hwn : walk m.fs_root (pyPartsF npp) = .ok (.dir nm nes) := by
    have h2 := hnp
    rw [Memory.get_node, walkS_eq_walk] at h2
    exact h2
  obtain ⟨t1, t2, h1, h2, h3, h4⟩ :=
    rename_core (pyPartsF opp) m.fs_root (.file fm C) (pyPartsF npp) ofn nfn
      nm nes hwf rfl hwo hwn hpre1 hpre2
  have h1' : updateAtS m.fs_root (pyParts npp) (insF nfn (.file fm C)) = .ok t1 := by
    rw [updateAtS_eq_updateAt]
    exact h1
  have h2' : updateAtS t1 (pyParts opp) (delF ofn) = .ok t2 := by
    rw [updateAtS_eq_updateAt]
    exact h2
  refine ⟨{ m with fs_root := t2 }, ?_, ?_, ?_⟩
  · simp only [Memory.rename, hold, hsn, hso, Except.bind, h1', h2']
  · show walkS t2 (pyParts new_path) = .ok (.file fm C)
    rw [walkS_eq_walk]
    show walk t2 (pyPartsF new_path) = .ok (.file fm C)
    rw [hdn]
    exact h3
  · show (walkS t2 (pyParts old_path)).bind Node.attrs = .error .enoent
    rw [walkS_eq_walk]
    show (walk t2 (pyPartsF old_path)).bind Node.attrs = .error .enoent
    rw [hdo, h4]
    rfl

theorem c4_rename_moves_content_witness :
    ∃ m', fsFile.rename "/a" "/b" = .ok m' ∧
      m'.get_node "/b" = .ok (.file fileMetaA [104, 105]) ∧
      m'.getattr "/a" = .error .enoent :=
  c4_rename_moves_content fsFile "/a" "/b" "" "a" "" "b" fileMetaA rootMetaA
    [104, 105] [("a", .file fileMetaA [104, 105])]
    fsFile_wf rfl rfl rfl rfl rfl rfl rfl rfl

/-- C4 counterexample: with `/a` an existing (empty) file, the rename
with `old_path = new_path = "/a"` succeeds, but afterwards the new path
does not resolve to any node — `getattr` fails with NoSuchEntry — instead
of resolving to a node with the old content. -/
theorem c4_counterexample :
    ((Memory.init 0).create "/a" 0o644 0).bind (fun pr => pr.1.getattr "/a")
      = .ok { st_mode := 0o100644, st_ctime := 0, st_mtime := 0, st_atime := 0,
              st_nlink := 1, st_uid := 0, st_gid := 0, st_size := 0 }
    ∧ (((Memory.init 0).create "/a" 0o644 0).bind
        (fun pr => pr.1.rename "/a" "/a")).bind (fun m2 => m2.getattr "/a")
      = .error .enoent
    ∧ FsError.enoent ≠ FsError.attributeError :=
  ⟨rfl, rfl, by decide⟩

/-! ### C10 -/

/-- C10: when the old and new paths are the same string naming an existing
entry (same parent, same leaf), `rename(p, p)` succeeds and removes the
entry entirely: the insertion and the deletion target the same mapping
slot, so afterwards the path resolves to the missing-node sentinel and
`getattr` fails with NoSuchEntry. -/
theorem c10_rename_same_path_deletes (m : Memory) (p pp fn : String) (n : Node)
    (hwf : Node.wfB m.fs_root = true)
    (hs : split_parent_and_filename p = .ok (pp, fn))
    (hd : pyPartsF p = pyPartsF pp ++ [fn])
    (hn : m.get_node p = .ok n)
    (hr : n.isReal = true) :
    ∃ m', m.rename p p = .ok m' ∧
      m'.get_node p = .ok (.none noneMeta) ∧
      m'.getattr p = .error .enoent := by
  have hw : walk m.fs_root (pyPartsF pp ++ [fn]) = .ok n := by
    rw [← hd]
    have h2 := hn
    rw [Memory.get_node, walkS_eq_walk] at h2
    exact h2
  obtain ⟨pm, pes, hpw, hg⟩ := walk_snoc_real (pyPartsF pp) m.fs_root n fn hw hr
  have hwfp : Node.wfB (.dir pm pes) = true := wfB_walk (pyPartsF pp) m.fs_root _ hwf hpw
  obtain ⟨t1, h1, h1w⟩ :=
    walk_update_same (pyPartsF pp) m.fs_root (.dir pm pes)
      (.dir pm (dictSet pes fn n)) (insF fn n) hpw rfl rfl
  have hgset : dictGet (dictSet pes fn n) fn = some n := dictGet_dictSet_self pes fn n
  obtain ⟨es2, hdel⟩ := dictDel_of_get _ fn n hgset
  have hdelF : delF fn (.dir pm (dictSet pes fn n)) = .ok (.dir pm es2) := by
    simp [delF, hdel]
  obtain ⟨t2, h2, h2w⟩ :=
    walk_update_same (pyPartsF pp) t1 (.dir pm (dictSet pes fn n))
      (.dir pm es2) (delF fn) h1w rfl hdelF
  have hnone : dictGet es2 fn = Option.none :=
    dictGet_dictDel_self (dictSet pes fn n) fn es2
      (nodupKeys_dictSet pes fn n (wfB_nodup pm pes hwfp)) hdel
  have h1' : updateAtS m.fs_root (pyParts pp) (insF fn n) = .ok t1 := by
    rw [updateAtS_eq_updateAt]
    exact h1
  have h2' : updateAtS t1 (pyParts pp) (delF fn) = .ok t2 := by
    rw [updateAtS_eq_updateAt]
    exact h2
  have hwneww : walk t2 (pyPartsF p) = .ok (.none noneMeta) := by
    rw [hd, walk_append, h2w]
    simp only [Except.bind]
    rw [walk, hnone]
    simp [Option.getD, walk]
  refine ⟨{ m with fs_root := t2 }, ?_, ?_, ?_⟩
  · simp only [Memory.rename, hn, hs, Except.bind, h1', h2']
  · show walkS t2 (pyParts p) = .ok (.none noneMeta)
    rw [walkS_eq_walk]
    exact hwneww
  · show (walkS t2 (pyParts p)).bind Node.attrs = .error .enoent
    rw [walkS_eq_walk]
    have : walk t2 ((pyParts p).filter (fun s => s != "")) = .ok (.none noneMeta) := hwneww
    rw [this]
    rfl

theorem c10_rename_same_path_deletes_witness :
    ∃ m', fsFile.rename "/a" "/a" = .ok m' ∧
      m'.get_node "/a" = .ok (.none noneMeta) ∧
      m'.getattr "/a" = .error .enoent :=
  c10_rename_same_path_deletes fsFile "/a" "" "a" (.file fileMetaA [104, 105])
    fsFile_wf rfl rfl rfl rfl

/-! ### C5 -/

/-- C5 (amended): `mkdir` under an existing parent directory always bumps
the parent link count by exactly 1 (and installs the fresh subdirectory),
and a successful `rmdir` always decrements it by exactly 1 regardless of
the removed entry or its contents; the invariant nlink = 2 + number of
immediate entries holds along mkdir/rmdir sequences in which every mkdir
names an absent path (a repeated mkdir of the same name bumps nlink again
without adding an entry, breaking the equation as stated). -/
theorem c5_nlink_bookkeeping :
    (∀ (m : Memory) (p pp fn : String) (mode now : Nat) (dm : NMeta)
        (des : List (String × Node)),
        split_parent_and_filename p = .ok (pp, fn) →
        m.get_node pp = .ok (.dir dm des) →
        ∃ m', m.mkdir p mode now = .ok m' ∧
          m'.get_node pp = .ok (.dir { dm with nlink := dm.nlink + 1 }
            (dictSet des fn (dirNode mode now))))
    ∧ (∀ (m : Memory) (p pp fn : String) (dm : NMeta)
        (des des' : List (String × Node)),
        split_parent_and_filename p = .ok (pp, fn) →
        m.get_node pp = .ok (.dir dm des) →
        dictDel des fn = some des' →
        ∃ m', m.rmdir p = .ok m' ∧
          m'.get_node pp = .ok (.dir { dm with nlink := dm.nlink - 1 } des'))
    ∧ (∀ m : Memory, ReachMR m → Node.mrInv m.fs_root = true) := by
  refine ⟨?_, ?_, reachMR_inv⟩
  · intro m p pp fn mode now dm des hsp hpar
    have hw : walk m.fs_root (pyPartsF pp) = .ok (.dir dm des) := by
      have h2 := hpar
      rw [Memory.get_node, walkS_eq_walk] at h2
      exact h2
    obtain ⟨t', h1, h2⟩ :=
      walk_update_same (pyPartsF pp) m.fs_root (.dir dm des)
        (.dir { dm with nlink := dm.nlink + 1 } (dictSet des fn (dirNode mode now)))
        (fun n =>
          match n with
          | .dir dm2 es =>
              .ok (.dir { dm2 with nlink := dm2.nlink + 1 }
                     (dictSet es fn (dirNode mode now)))
          | _ => .error .attributeError)
        hw rfl rfl
    have h1' : updateAtS m.fs_root (pyParts pp) (fun n =>
        match n with
        | .dir dm2 es =>
            .ok (.dir { dm2 with nlink := dm2.nlink + 1 }
                   (dictSet es fn (dirNode mode now)))
        | _ => .error .attributeError) = .ok t' := by
      rw [updateAtS_eq_updateAt]
      exact h1
    refine ⟨{ m with fs_root := t' }, ?_, ?_⟩
    · simp only [Memory.mkdir, hsp, Except.bind, h1']
    · show walkS t' (pyParts pp) = _
      rw [walkS_eq_walk]
      exact h2
  · intro m p pp fn dm des des' hsp hpar hdel
    have hw : walk m.fs_root (pyPartsF pp) = .ok (.dir dm des) := by
      have h2 := hpar
      rw [Memory.get_node, walkS_eq_walk] at h2
      exact h2
    have hf : (fun n =>
        match n with
        | Node.dir dm2 es =>
            match dictDel es fn with
            | some es'' => Except.ok (Node.dir { dm2 with nlink := dm2.nlink - 1 } es'')
            | Option.none => Except.error (FsError.keyError fn)
        | _ => Except.error FsError.attributeError) (.dir dm des)
        = .ok (.dir { dm with nlink := dm.nlink - 1 } des') := by
      show (match dictDel des fn with
        | some es'' => Except.ok (Node.dir { dm with nlink := dm.nlink - 1 } es'')
        | Option.none => Except.error (FsError.keyError fn))
        = Except.ok (Node.dir { dm with nlink := dm.nlink - 1 } des')
      rw [hdel]
    obtain ⟨t', h1, h2⟩ :=
      walk_update_same (pyPartsF pp) m.fs_root (.dir dm des)
        (.dir { dm with nlink := dm.nlink - 1 } des')
        (fun n =>
          match n with
          | Node.dir dm2 es =>
              match dictDel es fn with
              | some es'' => Except.ok (Node.dir { dm2 with nlink := dm2.nlink - 1 } es'')
              | Option.none => Except.error (FsError.keyError fn)
          | _ => Except.error FsError.attributeError)
        hw rfl hf
    have h1' : updateAtS m.fs_root (pyParts pp) (fun n =>
        match n with
        | Node.dir dm2 es =>
            match dictDel es fn with
            | some es'' => Except.ok (Node.dir { dm2 with nlink := dm2.nlink - 1 } es'')
            | Option.none => Except.error (FsError.keyError fn)
        | _ => Except.error FsError.attributeError) = .ok t' := by
      rw [updateAtS_eq_updateAt]
      exact h1
    refine ⟨{ m with fs_root := t' }, ?_, ?_⟩
    · simp only [Memory.rmdir, hsp, Except.bind, h1']
    · show walkS t' (pyParts pp) = _
      rw [walkS_eq_walk]
      exact h2

theorem c5_nlink_bookkeeping_witness :
    (∃ m', (Memory.init 0).mkdir "/d" 0o755 0 = .ok m' ∧
      (m'.getattr "").map Attrs.st_nlink = .ok 3)
    ∧ (∃ m2, fsDir.rmdir "/d" = .ok m2 ∧
      (m2.getattr "").map Attrs.st_nlink = .ok 2)
    ∧ Node.mrInv (Memory.init 0).fs_root = true := by
  refine ⟨?_, ?_, c5_nlink_bookkeeping.2.2 (Memory.init 0) (ReachMR.base 0)⟩
  · obtain ⟨m', h1, h2⟩ := c5_nlink_bookkeeping.1 (Memory.init 0) "/d" "" "d"
      0o755 0 { baseMeta (0o040000 ||| 0o755) 0 with nlink := 2 } [] rfl rfl
    refine ⟨m', h1, ?_⟩
    have : m'.getattr "" = (m'.get_node "").bind Node.attrs := rfl
    rw [this, h2]
    rfl
  · obtain ⟨m2, h1, h2⟩ := c5_nlink_bookkeeping.2.1 fsDir "/d" "" "d"
      { rootMetaA with nlink := 3 } [("d", dirNode 0o755 0)] [] rfl rfl rfl
    refine ⟨m2, h1, ?_⟩
    have : m2.getattr "" = (m2.get_node "").bind Node.attrs := rfl
    rw [this, h2]
    rfl

/-- C5 counterexample: two consecutive `mkdir("/d")` calls leave the root
with a single entry but `st_nlink = 4`, so nlink is not 2 plus the number
of immediate subdirectory entries after this mkdir sequence. -/
theorem c5_counterexample :
    (((Memory.init 0).mkdir "/d" 0o755 0).bind
        (fun m1 => m1.mkdir "/d" 0o755 0)).bind (fun m2 => m2.getattr "/")
      = .ok { st_mode := 0o40755, st_ctime := 0, st_mtime := 0, st_atime := 0,
              st_nlink := 4, st_uid := 0, st_gid := 0, st_size := 0 }
    ∧ (((Memory.init 0).mkdir "/d" 0o755 0).bind
        (fun m1 => m1.mkdir "/d" 0o755 0)).bind (fun m2 => m2.readdir "/")
      = .ok [".", "..", "d"]
    ∧ (4 : Int) ≠ 2 + ((1 : Nat) : Int) :=
  ⟨rfl, rfl, by decide⟩

/-! ### C6 -/

/-- C6: writing `data` at `offset` into an existing file with content `C`
succeeds, returns `len(data)`, and leaves the content equal to the first
`offset` bytes of `C` followed by `data` — extending the file and
discarding any former bytes past `offset + len(data)`. -/
theorem c6_write_semantics (m : Memory) (p : String) (fm : NMeta)
    (C data : List Nat) (offset : Nat)
    (h : m.get_node p = .ok (.file fm C)) :
    ∃ m', m.write p data offset = .ok (m', data.length) ∧
      m'.get_node p = .ok (.file fm (C.take offset ++ data)) := by
  have hw : walk m.fs_root (pyPartsF p) = .ok (.file fm C) := by
    have h2 := h
    rw [Memory.get_node, walkS_eq_walk] at h2
    exact h2
  obtain ⟨t', h1, h2⟩ :=
    walk_update_same (pyPartsF p) m.fs_root (.file fm C)
      (.file fm (C.take offset ++ data))
      (fun n =>
        match n with
        | .file mm d => .ok (.file mm (d.take offset ++ data))
        | .symlink mm d => .ok (.symlink mm (d.take offset ++ data))
        | _ => .error .attributeError)
      hw rfl rfl
  have h1' : updateAtS m.fs_root (pyParts p) (fun n =>
      match n with
      | .file mm d => .ok (.file mm (d.take offset ++ data))
      | .symlink mm d => .ok (.symlink mm (d.take offset ++ data))
      | _ => .error .attributeError) = .ok t' := by
    rw [updateAtS_eq_updateAt]
    exact h1
  refine ⟨{ m with fs_root := t' }, ?_, ?_⟩
  · simp only [Memory.write, Except.bind, h1']
  · show walkS t' (pyParts p) = _
    rw [walkS_eq_walk]
    exact h2

theorem c6_write_semantics_witness :
    ∃ m', fsFile.write "/a" [33] 1 = .ok (m', 1) ∧
      m'.get_node "/a" = .ok (.file fileMetaA [104, 33]) :=
  c6_write_semantics fsFile "/a" fileMetaA [104, 105] [33] 1 rfl

/-! ### C7 -/

/-- C7: truncating an existing file with content `C` to `length` succeeds
and leaves exactly the first `length` bytes of `C`; the size never grows,
and a `length` at or beyond the current size leaves the content (and so
the size) unchanged — no zero padding. -/
theorem c7_truncate_semantics (m : Memory) (p : String) (fm : NMeta)
    (C : List Nat) (length : Nat)
    (h : m.get_node p = .ok (.file fm C)) :
    ∃ m', m.truncate p length = .ok m' ∧
      m'.get_node p = .ok (.file fm (C.take length)) ∧
      (C.take length).length ≤ C.length ∧
      (C.length ≤ length → C.take length = C) := by
  have hw : walk m.fs_root (pyPartsF p) = .ok (.file fm C) := by
    have h2 := h
    rw [Memory.get_node, walkS_eq_walk] at h2
    exact h2
  obtain ⟨t', h1, h2⟩ :=
    walk_update_same (pyPartsF p) m.fs_root (.file fm C) (.file fm (C.take length))
      (fun n =>
        match n with
        | .file mm d => .ok (.file mm (d.take length))
        | .symlink mm d => .ok (.symlink mm (d.take length))
        | _ => .error .attributeError)
      hw rfl rfl
  have h1' : updateAtS m.fs_root (pyParts p) (fun n =>
      match n with
      | .file mm d => .ok (.file mm (d.take length))
      | .symlink mm d => .ok (.symlink mm (d.take length))
      | _ => .error .attributeError) = .ok t' := by
    rw [updateAtS_eq_updateAt]
    exact h1
  refine ⟨{ m with fs_root := t' }, ?_, ?_, ?_, ?_⟩
  · simp only [Memory.truncate, Except.bind, h1']
  · show walkS t' (pyParts p) = _
    rw [walkS_eq_walk]
    exact h2
  · rw [List.length_take]
    exact min_le_right _ _
  · intro hle
    exact List.take_of_length_le hle

theorem c7_truncate_semantics_witness :
    ∃ m', fsFile.truncate "/a" 20 = .ok m' ∧
      m'.get_node "/a" = .ok (.file fileMetaA ([104, 105].take 20)) ∧
      (([104, 105] : List Nat).take 20).length ≤ 2 ∧
      (2 ≤ 20 → ([104, 105] : List Nat).take 20 = [104, 105]) :=
  c7_truncate_semantics fsFile "/a" fileMetaA [104, 105] 20 rfl

/-! ### C8 -/

/-- C8: on any path resolving to a real node, `setxattr` followed by
`getxattr` of the same name returns exactly the stored value; and
`getxattr` of a name absent from the node's extended attribute mapping
fails with AttributeNotFound (the `ENODATA` error). -/
theorem c8_xattr_roundtrip :
    (∀ (m : Memory) (p k : String) (v : List Nat) (n : Node),
        m.get_node p = .ok n → n.isReal = true →
        ∃ m', m.setxattr p k v = .ok m' ∧ m'.getxattr p k = .ok v)
    ∧ (∀ (m : Memory) (p k : String) (n : Node),
        m.get_node p = .ok n → n.isReal = true →
        dictGet n.meta.xattrs k = Option.none →
        m.getxattr p k = .error .enodata) := by
  constructor
  · intro m p k v n hn hr
    have hw : walk m.fs_root (pyPartsF p) = .ok n := by
      have h2 := hn
      rw [Memory.get_node, walkS_eq_walk] at h2
      exact h2
    obtain ⟨t', h1, h2⟩ :=
      walk_update_same (pyPartsF p) m.fs_root n (n.withXattr k v)
        (fun q => .ok (q.withXattr k v)) hw hr rfl
    have h1' : updateAtS m.fs_root (pyParts p)
        (fun q => .ok (q.withXattr k v)) = .ok t' := by
      rw [updateAtS_eq_updateAt]
      exact h1
    refine ⟨{ m with fs_root := t' }, ?_, ?_⟩
    · simp only [Memory.setxattr, Except.bind, h1']
    · have hget : Memory.get_node { m with fs_root := t' } p = .ok (n.withXattr k v) := by
        show walkS t' (pyParts p) = _
        rw [walkS_eq_walk]
        exact h2
      simp only [Memory.getxattr, hget, Except.bind]
      rw [meta_withXattr, dictGet_dictSet_self]
  · intro m p k n hn hr habs
    simp only [Memory.getxattr, hn, Except.bind]
    rw [habs]

theorem c8_xattr_roundtrip_witness :
    (∃ m', fsFile.setxattr "/a" "user.k" [1, 2] = .ok m' ∧
      m'.getxattr "/a" "user.k" = .ok [1, 2])
    ∧ fsFile.getxattr "/a" "zz" = .error .enodata :=
  ⟨c8_xattr_roundtrip.1 fsFile "/a" "user.k" [1, 2]
      (.file fileMetaA [104, 105]) rfl rfl,
   c8_xattr_roundtrip.2 fsFile "/a" "zz"
      (.file fileMetaA [104, 105]) rfl rfl rfl⟩

/-! ### C9 -/

/-- C9 (amended): `readlink` on a path resolving to a symlink returns the
stored target text, and on a regular file it also succeeds, returning the
file content; on a path resolving to a directory or to the missing-node
sentinel it raises an untyped `AttributeError` (no `data` attribute), not
the typed NoSuchEntry the spec promises. -/
theorem c9_readlink_kinds :
    (∀ (m : Memory) (p : String) (sm : NMeta) (d : List Nat),
        m.get_node p = .ok (.symlink sm d) → m.readlink p = .ok d)
    ∧ (∀ (m : Memory) (p : String) (fm : NMeta) (d : List Nat),
        m.get_node p = .ok (.file fm d) → m.readlink p = .ok d)
    ∧ (∀ (m : Memory) (p : String) (dm : NMeta) (es : List (String × Node)),
        m.get_node p = .ok (.dir dm es) → m.readlink p = .error .attributeError)
    ∧ (∀ (m : Memory) (p : String) (nm : NMeta),
        m.get_node p = .ok (.none nm) → m.readlink p = .error .attributeError) := by
  refine ⟨?_, ?_, ?_, ?_⟩
  · intro m p sm d h
    simp only [Memory.readlink, h, Except.bind]
  · intro m p fm d h
    simp only [Memory.readlink, h, Except.bind]
  · intro m p dm es h
    simp only [Memory.readlink, h, Except.bind]
  · intro m p nm h
    simp only [Memory.readlink, h, Except.bind]

theorem c9_readlink_kinds_witness :
    fsLink.readlink "/l" = .ok [116] ∧
    fsFile.readlink "/a" = .ok [104, 105] ∧
    fsLink.readlink "/" = .error .attributeError ∧
    fsLink.readlink "/gone" = .error .attributeError :=
  ⟨c9_readlink_kinds.1 fsLink "/l" linkMetaA [116] rfl,
   c9_readlink_kinds.2.1 fsFile "/a" fileMetaA [104, 105] rfl,
   c9_readlink_kinds.2.2.1 fsLink "/" rootMetaA [("l", .symlink linkMetaA [116])] rfl,
   c9_readlink_kinds.2.2.2 fsLink "/gone" noneMeta rfl⟩

/-- C9 counterexample: the root path resolves to a directory, which is
not symlink-capable, yet `readlink("/")` raises an untyped
`AttributeError` instead of failing with NoSuchEntry. -/
theorem c9_counterexample :
    (Memory.init 0).readlink "/" = .error .attributeError ∧
    FsError.attributeError ≠ FsError.enoent ∧
    ((Memory.init 0).symlink "/l" "t" 0).bind (fun m1 => m1.readlink "/l")
      = .ok [116] :=
  ⟨rfl, by decide, rfl⟩
